import Mathlib

/-!
Verification development for the `shift-schedule` repository.

The core of the repository is `src/core/linemap.ts`: a `LineMap<T>` indexing
half-open integer ranges `[start, end)` against tokens, backed by an
AVL-style interval tree whose nodes own disjoint fragments, plus a
token-range `Map` (`_tokenRangeMap`).  This file is a shallow embedding of
that module: every definition below is a direct functional translation of
the corresponding TypeScript function, mutation being rendered as explicit
rebuilding of the affected subtree.  JavaScript `Set<T>` is rendered as an
insertion-ordered duplicate-free `List T`, `Map<T, R>` as an
insertion-ordered association list, numbers as `Int`, and thrown errors as
`Except String`.  Loops of the source that are not structurally recursive
carry an explicit fuel parameter; the in-place pointer surgery performed by
`remove` on a node with two children aliases a node into its own subtree
(producing a cyclic object graph not representable as a tree value), and
the translation returns `none` exactly when the source execution reaches
such a step.
-/

namespace LineMapModel

/-- Translation of `LineMapNode<T>` (`linemap.ts` lines 127-137): a node
holds `lNode`, `start`, `end`, `tokens`, a cached `height` and `rNode`.
`nil` is the `null` child/root. Constructor argument order:
left, start, end, tokens, height, right. -/
inductive Tree (T : Type) where
  | nil : Tree T
  | node : Tree T → Int → Int → List T → Int → Tree T → Tree T
deriving DecidableEq, Repr

/-- The `node?.height ?? -1` idiom of the source. -/
def height {T : Type} : Tree T → Int
  | .nil => -1
  | .node _ _ _ _ h _ => h

/-- JavaScript `Set.add`: appends the element unless already present
(insertion order preserved). -/
def addTok {T : Type} [DecidableEq T] (s : List T) (a : T) : List T :=
  if a ∈ s then s else s ++ [a]

/-- `updateHeight` (lines 629-632): recomputes the cached height of the
root from the cached heights of its children. -/
def updateHeight {T : Type} : Tree T → Tree T
  | .nil => .nil
  | .node l s e tks _ r => .node l s e tks (1 + max (height l) (height r)) r

/-- `getBalanceFactor` (lines 644-646). The source only applies it to
non-null nodes. -/
def getBalanceFactor {T : Type} : Tree T → Int
  | .nil => 0
  | .node l _ _ _ _ r => height r - height l

/-- `rotateRight` (lines 599-606). The source dereferences `node.lNode!`;
all call sites guarantee a left child, so the catch-all branch is
unreachable there. -/
def rotateRight {T : Type} : Tree T → Tree T
  | .node (.node ll ls le ltks lh lr) s e tks h r =>
      let n := updateHeight (.node lr s e tks h r)
      updateHeight (.node ll ls le ltks lh n)
  | t => t

/-- `rotateLeft` (lines 614-621). -/
def rotateLeft {T : Type} : Tree T → Tree T
  | .node l s e tks h (.node rl rs re rtks rh rr) =>
      let n := updateHeight (.node l s e tks h rl)
      updateHeight (.node n rs re rtks rh rr)
  | t => t

/-- `balance` (lines 568-591).  The defensive `|balanceFactor| > 2` branch
re-invokes `balance` on the same node after treating the children, which
is not structurally decreasing; the fuel bounds that recursion. -/
def balanceF {T : Type} : Nat → Tree T → Tree T
  | 0, t => t
  | fuel + 1, t =>
    match t with
    | .nil => .nil
    | .node l s e tks h r =>
      let bf := height r - height l
      if bf = 2 then
        let r2 := if getBalanceFactor r < 0 then rotateRight r else r
        rotateLeft (.node l s e tks h r2)
      else if bf = -2 then
        let l2 := if 0 < getBalanceFactor l then rotateLeft l else l
        rotateRight (.node l2 s e tks h r)
      else if 2 < bf.natAbs then
        let l2 := match l with | .nil => l | .node .. => balanceF fuel l
        let r2 := match r with | .nil => r | .node .. => balanceF fuel r
        balanceF fuel (updateHeight (.node l2 s e tks h r2))
      else t

/-- Attachment of a freshly split node at the leftmost slot of the right
subtree, `insert` lines 355-375: descend the left spine, set the leftmost
node's `lNode` to the new node and update its height, then for every
stacked ancestor (bottom-up) re-balance and re-measure both children and
update the ancestor's height. -/
def attachLeftmost {T : Type} (fuel : Nat) (newN : Tree T) : Tree T → Tree T
  | .nil => newN
  | .node .nil s e tks h r => updateHeight (.node newN s e tks h r)
  | .node (.node a b c d f g) s e tks h r =>
      let l1 := attachLeftmost fuel newN (.node a b c d f g)
      let l2 := balanceF fuel (updateHeight l1)
      let r2 := match r with
        | .nil => r
        | .node .. => balanceF fuel (updateHeight r)
      updateHeight (.node l2 s e tks h r2)

/-- Mirror image of `attachLeftmost`, `insert` lines 391-411: attach at the
rightmost slot of the left subtree. -/
def attachRightmost {T : Type} (fuel : Nat) (newN : Tree T) : Tree T → Tree T
  | .nil => newN
  | .node l s e tks h .nil => updateHeight (.node l s e tks h newN)
  | .node l s e tks h (.node a b c d f g) =>
      let r1 := attachRightmost fuel newN (.node a b c d f g)
      let r2 := balanceF fuel (updateHeight r1)
      let l2 := match l with
        | .nil => l
        | .node .. => balanceF fuel (updateHeight l)
      updateHeight (.node l2 s e tks h r2)

/-- `insert` (lines 334-430), translated statement by statement.  The four
phases run in source order on the evolving node: token addition on full
containment; split at `start` when `start` falls strictly inside the node
(the node is shrunk in place to `[node.start, start)`, the new right
remainder is attached and the node re-balanced — note the source updates
the node's height before balancing only in the `rNode == null` case);
split at `end`, symmetric (here the source updates no height in the
`lNode == null` case); then recursive descent into the uncovered left and
right remainders. -/
def insertF {T : Type} [DecidableEq T] : Nat → Tree T → T → Int → Int → Tree T
  | 0, t, _, _, _ => t
  | _ + 1, .nil, tok, s, e => .node .nil s e [tok] 0 .nil
  | fuel + 1, .node l0 ns0 ne0 tks0 h0 r0, tok, s, e =>
    -- line 340: if (start <= node.start && end >= node.end) node.tokens.add(token)
    let tks1 := if s ≤ ns0 ∧ ne0 ≤ e then addTok tks0 tok else tks0
    let t1 : Tree T := .node l0 ns0 ne0 tks1 h0 r0
    -- lines 344-379: split at start
    let t2 : Tree T :=
      match t1 with
      | .nil => t1
      | .node l1 ns1 ne1 tks1 h1 r1 =>
        if ns1 < s ∧ s < ne1 then
          let newN : Tree T := .node .nil s ne1 (addTok tks1 tok) 0 .nil
          match r1 with
          | .nil => balanceF fuel (updateHeight (.node l1 ns1 s tks1 h1 newN))
          | .node .. => balanceF fuel (.node l1 ns1 s tks1 h1 (attachLeftmost fuel newN r1))
        else t1
    -- lines 381-415: split at end
    let t3 : Tree T :=
      match t2 with
      | .nil => t2
      | .node l2 ns2 ne2 tks2 h2 r2 =>
        if ns2 < e ∧ e < ne2 then
          let newN : Tree T := .node .nil ns2 e (addTok tks2 tok) 0 .nil
          match l2 with
          | .nil => balanceF fuel (.node newN e ne2 tks2 h2 r2)
          | .node .. => balanceF fuel (.node (attachRightmost fuel newN l2) e ne2 tks2 h2 r2)
        else t2
    -- lines 417-421: left remainder
    let t4 : Tree T :=
      match t3 with
      | .nil => t3
      | .node l3 ns3 ne3 tks3 h3 r3 =>
        if s < ns3 then
          balanceF fuel (updateHeight (.node (insertF fuel l3 tok s (min e ns3)) ns3 ne3 tks3 h3 r3))
        else t3
    -- lines 423-427: right remainder
    match t4 with
    | .nil => t4
    | .node l4 ns4 ne4 tks4 h4 r4 =>
      if ne4 < e then
        balanceF fuel (updateHeight (.node l4 ns4 ne4 tks4 h4 (insertF fuel r4 tok (max s ne4) e)))
      else t4

/-- `hasNode` (lines 188-200): overlap test used by `filled`, with the
special case for degenerate point queries landing on a node's `start`,
and guarded descent (`end < node.start` to the left, `start > node.start`
to the right). -/
def hasNode {T : Type} : Tree T → Int → Int → Bool
  | .nil, _, _ => false
  | .node l ns ne _ _ r, s, e =>
      (max s ns < min e ne) ||
      (s == e && s == ns) ||
      (e < ns && hasNode l s e) ||
      (ns < s && hasNode r s e)

/-- `getNodes` (lines 238-264): collects the nodes intersecting the range,
in left-to-right order; a degenerate query `start == end` additionally
matches any node whose sub-range contains the point. -/
def getNodes {T : Type} : Tree T → Int → Int → List (Int × Int × List T)
  | .nil, _, _ => []
  | .node l ns ne tks _ r, s, e =>
      (if s < ns then getNodes l s e else []) ++
      (if max s ns < min e ne ∨ (s = e ∧ ns ≤ s ∧ s < ne) then [(ns, ne, tks)] else []) ++
      (if ne < e then getNodes r s e else [])

/-- Accumulation of one node's token set into the result set of
`LineMap.getKeys` (lines 51-55). -/
def addAll {T : Type} [DecidableEq T] (acc : List T) (tks : List T) : List T :=
  tks.foldl addTok acc

/-- The `result` set of `LineMap.getKeys` after the loop over `getNodes`
output (lines 48-57), in `Array.from` order. -/
def collectKeys {T : Type} [DecidableEq T] (l : List (Int × Int × List T)) : List T :=
  l.foldl (fun acc n => addAll acc n.2.2) []

/-- Test whether a (root) node's left child's token set contains the token:
the predicate `(n) => !!n.lNode?.tokens.has(token)` passed to
`findRootNode` in `remove` (line 445). -/
def leftChildHas {T : Type} [DecidableEq T] (tok : T) : Tree T → Bool
  | .node (.node _ _ _ ltks _ _) _ _ _ _ _ => tok ∈ ltks
  | _ => false

/-- The predicate `(n) => !!n.rNode?.tokens.has(token)` of `remove`
line 447. -/
def rightChildHas {T : Type} [DecidableEq T] (tok : T) : Tree T → Bool
  | .node _ _ _ _ _ (.node _ _ _ rtks _ _) => tok ∈ rtks
  | _ => false

/-- `findRootNode` (lines 657-681) performs a breadth-first search but
returns the root whenever any node of the tree satisfies the test
function, so only existence matters; `anyNodeB p t` is that existence
test. -/
def anyNodeB {T : Type} (p : Tree T → Bool) : Tree T → Bool
  | .nil => false
  | .node l s e tks h r => p (.node l s e tks h r) || anyNodeB p l || anyNodeB p r

/-- `isEqualSets` (lines 697-709): size equality plus one-sided inclusion. -/
def eqSets {T : Type} [DecidableEq T] (a b : List T) : Bool :=
  a.length == b.length && a.all (fun x => decide (x ∈ b))

/-- The predecessor walk of `remove` (lines 462-476) on the left subtree
of a node being spliced out: walk the right spine to the maximum node
`nNode`; if `nNode.lNode` exists it replaces `nNode` under its parent
(whose height is updated, the higher stacked ancestors being updated by
the loop at lines 494-496 — here every rebuilt ancestor gets its height
recomputed, which is the same assignment in a different order).  Returns
the reduced left subtree together with `nNode`'s payload.  When
`nNode.lNode` is null the source skips the relink, so the later
`nNode.lNode = node.lNode` aliases `nNode` into a subtree that still
contains it: the object graph becomes cyclic and is not representable
here, hence `none`.  The caller never passes a spine of length one (that
case is the other cyclic one). -/
def detachMaxGo {T : Type} : Tree T → Option (Tree T × (Int × Int × List T))
  | .nil => none
  | .node ll s e tks _ .nil =>
      match ll with
      | .nil => none
      | .node .. => some (ll, (s, e, tks))
  | .node ll s e tks h (.node a b c d f g) =>
      match detachMaxGo (.node a b c d f g) with
      | none => none
      | some (r2, info) => some (updateHeight (.node ll s e tks h r2), info)

/-- Splice-out step of `remove` (lines 455-499) for a node whose token set
became empty.  With at most one child the node is replaced by
`lNode ?? rNode`.  With two children the source picks a side by the
balance factor: the left-heavy branch grafts `node.lNode` (minus its
maximum) under the predecessor and drops `node.rNode`; the other branch
(`balanceFactor >= 0`) walks the RIGHT spine of `node.rNode` (its own
comment says it searches the minimum right node) and then executes
`nNode.rNode = node.rNode`, which always links a node to one of its own
ancestors (or to itself): the resulting object graph is cyclic, hence
`none`.  The predecessor branch is cyclic in the same way whenever the
maximum is `node.lNode` itself or has no left child. -/
def spliceOut {T : Type} (fuel : Nat) : Tree T → Option (Tree T)
  | .nil => some .nil
  | .node .nil _ _ _ _ r => some r
  | .node l _ _ _ _ .nil => some l
  | .node l s e tks h r =>
      let bf := height r - height l
      if bf < 0 then
        match l with
        | .node _ _ _ _ _ .nil => none
        | _ =>
          match detachMaxGo l with
          | none => none
          | some (l2, (ns, ne, ntks)) =>
              some (balanceF fuel (updateHeight (.node l2 ns ne ntks 0 .nil)))
      else none

/-- Rebuild helper for the left-neighbor sweep: fold the saved ancestor
frames (each a node minus its right child) back around the cursor. -/
def rebuildL {T : Type} : List (Tree T × Int × Int × List T × Int) → Tree T → Tree T
  | [], cur => cur
  | (fl, fs, fe, ftks, fh) :: rest, cur => rebuildL rest (.node fl fs fe ftks fh cur)

/-- Rebuild helper for the right-neighbor sweep: frames are nodes minus
their left child. -/
def rebuildR {T : Type} : List (Int × Int × List T × Int × Tree T) → Tree T → Tree T
  | [], cur => cur
  | (fs, fe, ftks, fh, fr) :: rest, cur => rebuildR rest (.node cur fs fe ftks fh fr)

/-- Left-neighbor merge sweep of `remove` (lines 503-527), run when the
node keeps a non-empty token set.  The cursor starts at `node.lNode` and
walks right (`stack.put(lNode); lNode = lNode.rNode`); a cursor whose
token set equals the node's is absorbed: `node.start` becomes the
cursor's `start`, the cursor is replaced under its stacked parent by the
cursor's LEFT child (its right child, had it one, is dropped), the
parent's height is updated (stale ancestors are left as they are), and
the walk resumes from the parent; with an empty stack the absorbed cursor
was `node.lNode` itself, which is replaced by its left child and the
node's height updated.  Arguments: fuel, the node's `start`/`end`/tokens/
height/`rNode`, the ancestor frame stack, the cursor. -/
def lsweep {T : Type} [DecidableEq T] :
    Nat → Int → Int → List T → Int → Tree T →
    List (Tree T × Int × Int × List T × Int) → Tree T → Option (Tree T)
  | 0, _, _, _, _, _, _, _ => none
  | fuel + 1, nS, nE, nTks, nH, nR, path, cursor =>
    match cursor with
    | .nil => some (.node (rebuildL path .nil) nS nE nTks nH nR)
    | .node cl cs ce ctks ch cr =>
      if eqSets ctks nTks then
        match path with
        | (fl, fs, fe, ftks, fh) :: rest =>
            lsweep fuel cs nE nTks nH nR rest (updateHeight (.node fl fs fe ftks fh cl))
        | [] => some (.node cl cs nE nTks (1 + max (height cl) (height nR)) nR)
      else
        match cr with
        | .node .. => lsweep fuel nS nE nTks nH nR ((cl, cs, ce, ctks, ch) :: path) cr
        | .nil =>
          match path with
          | [] => some (.node (.node cl cs ce ctks ch cr) nS nE nTks nH nR)
          | (fl, fs, fe, ftks, fh) :: rest =>
              lsweep fuel nS nE nTks nH nR rest (.node fl fs fe ftks fh (.node cl cs ce ctks ch cr))

/-- Right-neighbor merge sweep of `remove` (lines 529-552).  Note the
source's walk step: it tests `rNode.rNode != null` but moves the cursor
to `rNode.lNode` (lines 546-548), the cursor possibly becoming null,
which ends the loop; an absorbed cursor extends `node.end`, is replaced
under its parent by its RIGHT child (dropping its left child), and the
walk resumes from the parent.  Arguments: fuel, the node's `lNode`/
`start`/`end`/tokens/height, the frame stack, the cursor. -/
def rsweep {T : Type} [DecidableEq T] :
    Nat → Tree T → Int → Int → List T → Int →
    List (Int × Int × List T × Int × Tree T) → Tree T → Option (Tree T)
  | 0, _, _, _, _, _, _, _ => none
  | fuel + 1, nL, nS, nE, nTks, nH, path, cursor =>
    match cursor with
    | .nil => some (.node nL nS nE nTks nH (rebuildR path .nil))
    | .node cl cs ce ctks ch cr =>
      if eqSets ctks nTks then
        match path with
        | (fs, fe, ftks, fh, fr) :: rest =>
            rsweep fuel nL nS ce nTks nH rest (updateHeight (.node cr fs fe ftks fh fr))
        | [] => some (.node nL nS ce nTks (1 + max (height nL) (height cr)) cr)
      else
        match cr with
        | .node .. => rsweep fuel nL nS nE nTks nH ((cs, ce, ctks, ch, cr) :: path) cl
        | .nil =>
          match path with
          | [] => some (.node nL nS nE nTks nH (.node cl cs ce ctks ch cr))
          | (fs, fe, ftks, fh, fr) :: rest =>
              rsweep fuel nL nS nE nTks nH rest (.node (.node cl cs ce ctks ch cr) fs fe ftks fh fr)

/-- The two merge sweeps followed by `node = balance(node)` (line 554). -/
def mergeNeighbors {T : Type} [DecidableEq T] (fuel : Nat) : Tree T → Option (Tree T)
  | .nil => some .nil
  | .node l s e tks h r =>
    let afterL : Option (Tree T) :=
      match l with
      | .nil => some (.node l s e tks h r)
      | .node .. => lsweep fuel s e tks h r [] l
    match afterL with
    | none => none
    | some .nil => none
    | some (.node l2 s2 e2 tks2 h2 r2) =>
      let afterR : Option (Tree T) :=
        match r2 with
        | .nil => some (.node l2 s2 e2 tks2 h2 r2)
        | .node .. => rsweep fuel l2 s2 e2 tks2 h2 [] r2
      match afterR with
      | none => none
      | some t2 => some (balanceF fuel t2)

/-- `remove` (lines 439-559).  First the side recursion: if any node of
the tree has a left (else right) child containing the token, recurse into
the root's left (right) child — `findRootNode` returns the root itself
whenever its test succeeds anywhere.  Then, if the node's own set has the
token: delete it, update the node's height, and either splice the node
out (empty set) or run the neighbor merge sweeps.  `none` marks the
executions in which the source builds a cyclic object graph (see
`spliceOut`) or a loop exceeds the fuel. -/
def removeT {T : Type} [DecidableEq T] : Nat → Tree T → T → Option (Tree T)
  | 0, _, _ => none
  | fuel + 1, .nil, _ => some .nil
  | fuel + 1, .node l s e tks h r, tok =>
    let t0 : Tree T := .node l s e tks h r
    let step1 : Option (Tree T) :=
      if anyNodeB (leftChildHas tok) t0 then
        (removeT fuel l tok).map (fun l2 => Tree.node l2 s e tks h r)
      else if anyNodeB (rightChildHas tok) t0 then
        (removeT fuel r tok).map (fun r2 => Tree.node l s e tks h r2)
      else some t0
    match step1 with
    | none => none
    | some .nil => some .nil
    | some (.node l1 s1 e1 tks1 h1 r1) =>
      if tok ∈ tks1 then
        let tks2 := tks1.erase tok
        match updateHeight (.node l1 s1 e1 tks2 h1 r1) with
        | .nil => none
        | .node l3 s3 e3 tks3 h3 r3 =>
          if tks3.isEmpty then spliceOut fuel (.node l3 s3 e3 tks3 h3 r3)
          else mergeNeighbors fuel (.node l3 s3 e3 tks3 h3 r3)
      else some (.node l1 s1 e1 tks1 h1 r1)

/-- Fuel used to run the non-structural loops of the source on concrete
inputs; every evaluation below terminates well within it. -/
def opFuel : Nat := 200

/-- `LineMap<T>` (lines 5-121): the token-range `Map` (`_tokenRangeMap`,
an insertion-ordered association list with at most one entry per token)
and the tree root (`_rootNode`). -/
structure LineMap (T : Type) where
  index : List (T × Int × Int)
  root : Tree T
deriving DecidableEq, Repr

/-- The `new LineMap()` state. -/
def LineMap.empty {T : Type} : LineMap T := ⟨[], .nil⟩

/-- JavaScript `Map.get` on the association list. -/
def lookupTok {T : Type} [DecidableEq T] : List (T × Int × Int) → T → Option (Int × Int)
  | [], _ => none
  | (a, s, e) :: rest, t => if a = t then some (s, e) else lookupTok rest t

/-- JavaScript `Map.delete` on the association list (removes the unique
entry for the token, if present). -/
def eraseTok {T : Type} [DecidableEq T] : List (T × Int × Int) → T → List (T × Int × Int)
  | [], _ => []
  | (a, s, e) :: rest, t => if a = t then rest else (a, s, e) :: eraseTok rest t

/-- `LineMap.size` (lines 13-15): the size of `_tokenRangeMap`. -/
def LineMap.size {T : Type} (m : LineMap T) : Nat := m.index.length

/-- `LineMap.has` (lines 23-25): `_tokenRangeMap.has(token)`. -/
def LineMap.has {T : Type} [DecidableEq T] (m : LineMap T) (tok : T) : Bool :=
  (lookupTok m.index tok).isSome

/-- `LineMap.getRange` (lines 66-72): the registered range from
`_tokenRangeMap`, or `none`. -/
def LineMap.getRange {T : Type} [DecidableEq T] (m : LineMap T) (tok : T) : Option (Int × Int) :=
  lookupTok m.index tok

/-- `assertRange` (lines 684-688): throws when `end < start`. -/
def assertRange (s e : Int) : Except String Unit :=
  if e < s then .error "RangeError" else .ok ()

/-- `LineMap.filled` (lines 33-36). -/
def LineMap.filled {T : Type} (m : LineMap T) (s e : Int) : Except String Bool :=
  match assertRange s e with
  | .error msg => .error msg
  | .ok _ => .ok (hasNode m.root s e)

/-- `LineMap.getKeys` (lines 45-58): the distinct tokens of the nodes
returned by `getNodes`, in first-seen order. -/
def LineMap.getKeys {T : Type} [DecidableEq T] (m : LineMap T) (s e : Int) :
    Except String (List T) :=
  match assertRange s e with
  | .error msg => .error msg
  | .ok _ => .ok (collectKeys (getNodes m.root s e))

/-- `LineMap.set` (lines 83-101).  After range validation: a token already
registered with exactly this range is a no-op; a token registered with a
different range triggers `remove` then `insert` on the TREE ONLY — the
source never writes the new range into `_tokenRangeMap` in this branch;
an unregistered token is inserted into the tree and recorded in
`_tokenRangeMap`. -/
def LineMap.set {T : Type} [DecidableEq T] (m : LineMap T) (tok : T) (s e : Int) :
    Except String (LineMap T) :=
  match assertRange s e with
  | .error msg => .error msg
  | .ok _ =>
    match lookupTok m.index tok with
    | some (cs, ce) =>
      if s ≠ cs ∨ e ≠ ce then
        match removeT opFuel m.root tok with
        | none => .error "cyclic"
        | some r1 => .ok ⟨m.index, insertF opFuel r1 tok s e⟩
      else .ok m
    | none => .ok ⟨m.index ++ [(tok, s, e)], insertF opFuel m.root tok s e⟩

/-- `LineMap.remove` (lines 110-116): deletes the token from
`_tokenRangeMap` and, if it was present, from the tree, returning whether
it existed. -/
def LineMap.removeTok {T : Type} [DecidableEq T] (m : LineMap T) (tok : T) :
    Except String (Bool × LineMap T) :=
  if (lookupTok m.index tok).isSome then
    match removeT opFuel m.root tok with
    | none => .error "cyclic"
    | some r1 => .ok (true, ⟨eraseTok m.index tok, r1⟩)
  else .ok (false, m)

/-- `LineMap[Symbol.iterator]` (lines 118-120).  The method body is
`return getTreeGenerator(this._rootNode);` inside a generator function:
the inner generator becomes the RETURN VALUE of the outer generator and
is never delegated to (`yield*` is absent), so the outer generator
finishes on its first `next()` without yielding anything.  Iterating a
`LineMap` therefore produces the empty sequence of triples, for every
state. -/
def LineMap.iterYields {T : Type} (_ : LineMap T) : List (T × Int × Int) := []

/-- Whether a node has a child; `lNode.lNode != null || lNode.rNode != null`
in `getTreeGenerator`. -/
def hasChild {T : Type} : Tree T → Bool
  | .nil => false
  | .node .nil _ _ _ _ .nil => false
  | _ => true

/-- One emission pass of `getTreeGenerator` over a node's token set
(lines 291-296 etc.): yield each token not seen before, extending the
seen set. -/
def emitTokens {T : Type} [DecidableEq T] (sent : List T) (acc : List (T × Int × Int))
    (tks : List T) (s e : Int) : List T × List (T × Int × Int) :=
  tks.foldl
    (fun p tok => if tok ∈ p.1 then p else (p.1 ++ [tok], p.2 ++ [(tok, s, e)]))
    (sent, acc)

/-- The loop of `getTreeGenerator` (lines 276-323), as a fuel-bounded
small-step evaluator collecting the yielded triples: descend into a child
that itself has children (pushing the current node), emit childless left
child, node, childless right child, then pop.  A node popped back after
its left child was processed descends into that child again, so the loop
does not terminate on trees of height 2 or more; `none` models that
non-termination (fuel exhaustion). -/
def genLoop {T : Type} [DecidableEq T] :
    Nat → Tree T → List (Tree T) → List T → List (T × Int × Int) →
    Option (List (T × Int × Int))
  | 0, _, _, _, _ => none
  | fuel + 1, t, stack, sent, acc =>
    match t with
    | .nil => some acc
    | .node l s e tks h r =>
      if hasChild l then genLoop fuel l ((Tree.node l s e tks h r) :: stack) sent acc
      else
        let p1 := match l with
          | .nil => (sent, acc)
          | .node _ ls le ltks _ _ => emitTokens sent acc ltks ls le
        let p2 := emitTokens p1.1 p1.2 tks s e
        if hasChild r then genLoop fuel r ((Tree.node l s e tks h r) :: stack) p2.1 p2.2
        else
          let p3 := match r with
            | .nil => p2
            | .node _ rs re rtks _ _ => emitTokens p2.1 p2.2 rtks rs re
          match stack with
          | [] => some p3.2
          | top :: rest => genLoop fuel top rest p3.1 p3.2

/-- The triples `getTreeGenerator(root)` itself would yield (the generator
that `LineMap[Symbol.iterator]` builds and then discards as a return
value). -/
def getTreeGeneratorYields {T : Type} [DecidableEq T] (t : Tree T) :
    Option (List (T × Int × Int)) :=
  genLoop opFuel t [] [] []

/-- The true height of a subtree (leaf-free definition of the quantity the
cached `height` field is meant to track): `-1` for a missing child. -/
def realHeight {T : Type} : Tree T → Int
  | .nil => -1
  | .node l _ _ _ _ r => 1 + max (realHeight l) (realHeight r)

/-- The AVL balance invariant stated over TRUE subtree heights: at every
node, `|height(right) - height(left)| <= 1`. -/
def actualBalanced {T : Type} : Tree T → Bool
  | .nil => true
  | .node l _ _ _ _ r =>
      decide ((realHeight r - realHeight l).natAbs ≤ 1) &&
      actualBalanced l && actualBalanced r

/-- The nodes of a tree, in-order, as `(start, end, tokens)` triples. -/
def nodesList {T : Type} : Tree T → List (Int × Int × List T)
  | .nil => []
  | .node l s e tks _ r => nodesList l ++ (s, e, tks) :: nodesList r

/-- Whether every node's `(start, end)` satisfies a predicate. -/
def allNodesB {T : Type} (p : Int → Int → Bool) : Tree T → Bool
  | .nil => true
  | .node l s e _ _ r => p s e && allNodesB p l && allNodesB p r

/-- The ordering invariant of the spec (section 3): each node has
`start <= end`, all coordinates in its left subtree are at most its
`start`, and all coordinates in its right subtree are at least its
`end`. -/
def orderedB {T : Type} : Tree T → Bool
  | .nil => true
  | .node l s e _ _ r =>
      decide (s ≤ e) &&
      allNodesB (fun _ e2 => decide (e2 ≤ s)) l &&
      allNodesB (fun s2 _ => decide (e ≤ s2)) r &&
      orderedB l && orderedB r

/-- The fragments currently owned by a token: the sub-ranges of the
in-order nodes whose token set contains it. -/
def fragmentsOf {T : Type} [DecidableEq T] (tok : T) : Tree T → List (Int × Int)
  | .nil => []
  | .node l s e tks _ r =>
      fragmentsOf tok l ++ (if tok ∈ tks then [(s, e)] else []) ++ fragmentsOf tok r

/-- The coverage invariant for one token (spec section 3, coverage
correctness): its fragments, in order, tile `[a, b)` exactly —
consecutive, starting at `a` and ending at `b`. -/
def chainFromB : Int → Int → List (Int × Int) → Bool
  | a, b, [] => a == b
  | a, b, (s, e) :: rest => s == a && decide (a ≤ e) && chainFromB e b rest

/-- The `LineMap` states reachable from `new LineMap()` by the mutating
public operations (`set` and `remove`), along their successful runs. -/
inductive Reachable {T : Type} [DecidableEq T] : LineMap T → Prop where
  | empty : Reachable LineMap.empty
  | set {m m2 : LineMap T} {tok : T} {s e : Int} :
      Reachable m → m.set tok s e = .ok m2 → Reachable m2
  | remove {m m2 : LineMap T} {tok : T} {b : Bool} :
      Reachable m → m.removeTok tok = .ok (b, m2) → Reachable m2

instance {E A : Type} [DecidableEq E] [DecidableEq A] : DecidableEq (Except E A) := fun a b =>
  match a, b with
  | .ok x, .ok y =>
      if h : x = y then .isTrue (by rw [h]) else .isFalse (by intro hh; cases hh; exact h rfl)
  | .error x, .error y =>
      if h : x = y then .isTrue (by rw [h]) else .isFalse (by intro hh; cases hh; exact h rfl)
  | .ok _, .error _ => .isFalse (by intro hh; cases hh)
  | .error _, .ok _ => .isFalse (by intro hh; cases hh)

/-- C1: after `set('a', 1, 2)` followed by `set('a', 3, 4)` on a fresh
`LineMap`, `getRange('a')` still answers `(1, 2)`: the update branch of
`set` (lines 90-94) removes and re-inserts the token in the tree but
never writes the new range into `_tokenRangeMap`, so the claim's
"getRange(t) returns (a, b) immediately after set(t, a, b)" fails
whenever the token was already registered with a different range,
contradicting `set`'s own doc comment ("the segment range will be
updated"). -/
theorem c1_set_leaves_registered_range_stale :
    ((LineMap.empty : LineMap String).set "a" 1 2 >>= fun m => m.set "a" 3 4).map
      (fun m => (m.getRange "a", m.has "a", m.root))
    = .ok (some (1, 2), true, .node .nil 3 4 ["a"] 0 .nil) := by decide

/-- C2: iterating a `LineMap` yields no triples at all, whatever the
state: the `Symbol.iterator` generator RETURNS the inner tree generator
instead of delegating to it with `yield*`, so the sequence of yielded
values is empty even though the map holds a registered token and the
discarded inner generator would have yielded `("a", 0, 1)`. -/
theorem c2_iteration_yields_nothing :
    ((LineMap.empty : LineMap String).set "a" 0 1).map (fun m => m.iterYields) = .ok [] ∧
    ((LineMap.empty : LineMap String).set "a" 0 1).map (fun m => m.has "a") = .ok true ∧
    ((LineMap.empty : LineMap String).set "a" 0 1).map
      (fun m => getTreeGeneratorYields m.root) = .ok (some [("a", 0, 1)]) := by
  refine ⟨by decide, by decide, by decide⟩

/-- C3 counterexample: on the spec's own concrete scenario, token
`'one'` is registered with range `(10, 20)` and the point query
`getKeys(17, 17)` contains `'one'`, while the claim's right-hand side
`max(17,10) < min(17,20) or (17 == 17 and 17 == 10)` is false: the
claimed equivalence fails at this input. -/
theorem c3_point_query_counterexample :
    (((LineMap.empty : LineMap String).set "one" 10 20 >>= fun m => m.set "two" 30 40
        >>= fun m => m.set "three" 15 35) >>= fun m => m.getKeys 17 17)
      = .ok ["one", "three"] ∧
    (((LineMap.empty : LineMap String).set "one" 10 20 >>= fun m => m.set "two" 30 40
        >>= fun m => m.set "three" 15 35).map (fun m => m.getRange "one"))
      = .ok (some (10, 20)) ∧
    ¬(max (17 : Int) 10 < min (17 : Int) 20 ∨ ((17 : Int) = 17 ∧ (17 : Int) = 10)) := by
  refine ⟨by decide, by decide, by decide⟩

/-- C4: the six insertions below leave the tree unbalanced.  The last
call, `set(5, 5, 5)`, splits node `[0,10)` at `5`; the new fragment is
attached under `[10,20)` and that child's height is updated, but the
split node's own height is refreshed neither in the split step (the
source only does so when `node.rNode == null`) nor afterwards (a
degenerate insertion triggers no later phase), so the split node keeps
cached height 1 while its true height is 2; its parent `[20,30)` then
accepts balance factor `0 - 1 = -1` and skips the rotation, ending with
a left subtree of true height 2 against a right subtree of height 0. -/
theorem c4_balance_invariant_violated :
    (((LineMap.empty : LineMap Nat).set 0 20 30 >>= fun m => m.set 1 0 10
        >>= fun m => m.set 2 30 40 >>= fun m => m.set 3 (-10) 0
        >>= fun m => m.set 4 10 20 >>= fun m => m.set 5 5 5).map
      (fun m => actualBalanced m.root))
    = .ok false := by decide

/-- C5: removing token `'a'` from the three-node tree built below reaches
the two-children splice with balance factor `0`; the source then walks
the RIGHT spine of `node.rNode` (its comment says it searches the
minimum right node) and executes `nNode.rNode = node.rNode`, linking the
node to itself and dropping the left subtree — the translation reports
the cyclic object graph instead of a tree.  The claim's description
(replace by the in-order successor, relink its remaining child, keep the
ordering invariant) is what the code was meant to do and fails to do. -/
theorem c5_remove_two_children_corrupts_tree :
    (((LineMap.empty : LineMap String).set "b" 0 10 >>= fun m => m.set "a" 10 20
        >>= fun m => m.set "c" 20 30) >>= fun m => m.removeTok "a")
    = .error "cyclic" := by decide

/-- C6: the spec's concrete scenario, checked by evaluation:
after `set('one',10,20)`, `set('two',30,40)`, `set('three',15,35)`,
`getKeys(16,19)` is the set `{'one','three'}`, `getKeys(10,35)` is
`{'one','two','three'}`, the point query `getKeys(17)` (defaulted end,
i.e. `getKeys(17,17)`) is `{'one','three'}`, and `filled(20,30)` is
`false`. -/
theorem c6_concrete_scenario :
    ((((LineMap.empty : LineMap String).set "one" 10 20 >>= fun m => m.set "two" 30 40
        >>= fun m => m.set "three" 15 35) >>= fun m => m.getKeys 16 19).map List.toFinset
      = .ok {"one", "three"}) ∧
    ((((LineMap.empty : LineMap String).set "one" 10 20 >>= fun m => m.set "two" 30 40
        >>= fun m => m.set "three" 15 35) >>= fun m => m.getKeys 10 35).map List.toFinset
      = .ok {"one", "two", "three"}) ∧
    ((((LineMap.empty : LineMap String).set "one" 10 20 >>= fun m => m.set "two" 30 40
        >>= fun m => m.set "three" 15 35) >>= fun m => m.getKeys 17 17).map List.toFinset
      = .ok {"one", "three"}) ∧
    (((LineMap.empty : LineMap String).set "one" 10 20 >>= fun m => m.set "two" 30 40
        >>= fun m => m.set "three" 15 35) >>= fun m => m.filled 20 30)
      = .ok false := by
  refine ⟨by decide, by decide, by decide, by decide⟩

/-- C7: with `set('b',10,20)` then `set('a',0,10)`, the query `[5, 10)` has
`getKeys(5,10) == ['a']` (non-empty) while `filled(5,10) == false`:
`hasNode` descends left only under `end < node.start` and right only
under `start > node.start`, so it never reaches the `[0,10)` node that
`getNodes` finds, and the claimed equivalence between non-empty
`getKeys` and `filled` fails — `filled` here also contradicts its own
doc comment ("Checks if there is at least one set segment in the
specified range"). -/
theorem c7_getkeys_nonempty_but_filled_false :
    (((LineMap.empty : LineMap String).set "b" 10 20 >>= fun m => m.set "a" 0 10).map
      (fun m => (m.getKeys 5 10, m.filled 5 10)))
    = .ok (.ok ["a"], .ok false) := by decide

/-- C10 counterexample: registering token `1` with the degenerate range
`(15, 15)` on a map that already covers `[10, 20)` splits the existing
node and hands token `1` the whole fragment `[15, 20)`, so
`getKeys(16, 19)` DOES contain `1` although `getRange(1) = (15, 15)`:
the claim's "getKeys never contains t" fails on non-fresh maps. -/
theorem c10_degenerate_insert_counterexample :
    (((LineMap.empty : LineMap Nat).set 0 10 20 >>= fun m => m.set 1 15 15).map
      (fun m => (m.getRange 1, m.getKeys 16 19, m.getKeys 15 15)))
    = .ok (some (15, 15), .ok [0, 1], .ok []) := by decide

theorem assertRange_invalid {s e : Int} (h : e < s) :
    assertRange s e = .error "RangeError" := by
  simp [assertRange, h]

/-- C8: every range-accepting operation called with `start > end` fails
with the range error, surfaced synchronously; `assertRange` runs before
any state is touched, so the failing call returns no new map and every
observer of the old map is untouched (in this pure embedding a failing
`set` produces no successor state at all). -/
theorem c8_invalid_range_rejected {T : Type} [DecidableEq T]
    (m : LineMap T) (tok : T) (s e : Int) (h : e < s) :
    m.filled s e = .error "RangeError" ∧
    m.getKeys s e = .error "RangeError" ∧
    m.set tok s e = .error "RangeError" := by
  refine ⟨?_, ?_, ?_⟩ <;>
    simp [LineMap.filled, LineMap.getKeys, LineMap.set, assertRange_invalid h]

/-- Witness for C8 at the concrete call `(1, 0)` on the empty map. -/
theorem c8_invalid_range_rejected_witness :
    (LineMap.empty : LineMap Nat).filled 1 0 = .error "RangeError" ∧
    (LineMap.empty : LineMap Nat).getKeys 1 0 = .error "RangeError" ∧
    (LineMap.empty : LineMap Nat).set 7 1 0 = .error "RangeError" :=
  c8_invalid_range_rejected LineMap.empty 7 1 0 (by decide)

theorem lookupTok_isSome_iff {T : Type} [DecidableEq T]
    (idx : List (T × Int × Int)) (t : T) :
    (lookupTok idx t).isSome = true ↔ t ∈ idx.map Prod.fst := by
  induction idx with
  | nil => simp [lookupTok]
  | cons p rest ih =>
      obtain ⟨a, s, e⟩ := p
      by_cases hat : a = t
      · subst hat; simp [lookupTok]
      · simp [lookupTok, hat, ih, Ne.symm hat]

theorem lookupTok_none_iff {T : Type} [DecidableEq T]
    (idx : List (T × Int × Int)) (t : T) :
    lookupTok idx t = none ↔ t ∉ idx.map Prod.fst := by
  rw [← lookupTok_isSome_iff]
  cases lookupTok idx t <;> simp

theorem eraseTok_map_fst_sublist {T : Type} [DecidableEq T]
    (idx : List (T × Int × Int)) (t : T) :
    ((eraseTok idx t).map Prod.fst).Sublist (idx.map Prod.fst) := by
  induction idx with
  | nil => simp [eraseTok]
  | cons p rest ih =>
      obtain ⟨a, s, e⟩ := p
      by_cases hat : a = t
      · simp [eraseTok, hat]
      · simpa [eraseTok, hat] using ih.cons₂ a

/-- The successful runs of `set` either keep the token index unchanged or
append a fresh entry for a token not yet present. -/
theorem set_index_cases {T : Type} [DecidableEq T]
    {m m2 : LineMap T} {tok : T} {s e : Int} (h : m.set tok s e = .ok m2) :
    m2.index = m.index ∨
    (m2.index = m.index ++ [(tok, s, e)] ∧ lookupTok m.index tok = none) := by
  unfold LineMap.set at h
  split at h
  · cases h
  · split at h
    · split at h
      · split at h
        · cases h
        · cases h; exact Or.inl rfl
      · cases h; exact Or.inl rfl
    · rename_i hnone
      cases h
      exact Or.inr ⟨rfl, hnone⟩

/-- The successful runs of `remove` either erase the token's entry or
leave the index unchanged. -/
theorem removeTok_index_cases {T : Type} [DecidableEq T]
    {m m2 : LineMap T} {tok : T} {b : Bool} (h : m.removeTok tok = .ok (b, m2)) :
    m2.index = eraseTok m.index tok ∨ m2.index = m.index := by
  unfold LineMap.removeTok at h
  by_cases hs : (lookupTok m.index tok).isSome = true
  · rw [if_pos hs] at h
    rcases hrt : removeT opFuel m.root tok with _ | r1 <;> rw [hrt] at h
    · cases h
    · cases h; exact Or.inl rfl
  · rw [if_neg hs] at h
    cases h; exact Or.inr rfl

/-- Every reachable state has a duplicate-free token index: `set` records
a token only when `Map.has` is false, and `Map.delete` only removes. -/
theorem reachable_nodup {T : Type} [DecidableEq T]
    {m : LineMap T} (h : Reachable m) : (m.index.map Prod.fst).Nodup := by
  induction h with
  | empty => simp [LineMap.empty]
  | set hr hs ih =>
      rcases set_index_cases hs with heq | ⟨heq, hnone⟩
      · rw [heq]; exact ih
      · rw [heq]
        simp only [List.map_append, List.map_cons, List.map_nil]
        rw [List.nodup_append]
        refine ⟨ih, List.nodup_singleton _, ?_⟩
        intro x hx hx2
        simp at hx2
        subst hx2
        exact ((lookupTok_none_iff _ _).mp hnone) hx
  | remove hr hs ih =>
      rcases removeTok_index_cases hs with heq | heq <;> rw [heq]
      · exact (eraseTok_map_fst_sublist _ _).nodup ih
      · exact ih

/-- C9: in every reachable state the three observers agree and are
answered from the token-range index alone: `has(t)` is exactly
definedness of `getRange(t)`, `size` counts the distinct tokens `t` with
`has(t) = true` (the index keys, duplicate-free), and any two states with
the same index — whatever their trees — give identical `has`, `getRange`
and `size` answers. -/
theorem c9_observers_agree {T : Type} [DecidableEq T]
    (m : LineMap T) (h : Reachable m) :
    (∀ tok, m.has tok = (m.getRange tok).isSome) ∧
    (m.size = ((m.index.map Prod.fst).dedup).length) ∧
    (∀ tok, m.has tok = true ↔ tok ∈ m.index.map Prod.fst) ∧
    (∀ m2 : LineMap T, m2.index = m.index →
      (∀ tok, m2.has tok = m.has tok ∧ m2.getRange tok = m.getRange tok) ∧
      m2.size = m.size) := by
  refine ⟨fun tok => rfl, ?_, ?_, ?_⟩
  · rw [List.Nodup.dedup (reachable_nodup h), List.length_map]
    rfl
  · intro tok
    exact lookupTok_isSome_iff m.index tok
  · intro m2 h2
    exact ⟨fun tok => by simp [LineMap.has, LineMap.getRange, h2],
           by simp [LineMap.size, h2]⟩

/-- Witness for C9 at the empty map (reachable by the base constructor). -/
theorem c9_observers_agree_witness :
    (LineMap.empty : LineMap Nat).has 0 = ((LineMap.empty : LineMap Nat).getRange 0).isSome ∧
    (LineMap.empty : LineMap Nat).size =
      ((((LineMap.empty : LineMap Nat).index.map Prod.fst)).dedup).length :=
  ⟨(c9_observers_agree LineMap.empty Reachable.empty).1 0,
   (c9_observers_agree LineMap.empty Reachable.empty).2.1⟩

/-- C10 (amended): on a FRESH `LineMap`, registering a token with the
degenerate range `(p, p)` (also `set(t, p)` with the defaulted end, which
the source elaborates to the same call) yields the single-node state in
which `has(t)` is true, `size` counts the token, `filled(p, p)` is true,
and `getKeys(qs, qe)` is empty — hence never contains `t` — for every
valid query range.  The restriction to a map on which no existing
fragment strictly contains `p` is forced by the counterexample: a
degenerate `set` whose point falls strictly inside an existing fragment
splits it and hands the token the right remainder, which `getKeys` then
reports. -/
theorem c10_amended_fresh_map {T : Type} [DecidableEq T]
    (tok : T) (p qs qe : Int) (h : qs ≤ qe) :
    (LineMap.empty : LineMap T).set tok p p =
      .ok ⟨[(tok, p, p)], .node .nil p p [tok] 0 .nil⟩ ∧
    (⟨[(tok, p, p)], .node .nil p p [tok] 0 .nil⟩ : LineMap T).has tok = true ∧
    LineMap.size (⟨[(tok, p, p)], .node .nil p p [tok] 0 .nil⟩ : LineMap T) = 1 ∧
    (⟨[(tok, p, p)], .node .nil p p [tok] 0 .nil⟩ : LineMap T).filled p p = .ok true ∧
    (⟨[(tok, p, p)], .node .nil p p [tok] 0 .nil⟩ : LineMap T).getKeys qs qe = .ok [] := by
  have hins : insertF opFuel (.nil : Tree T) tok p p = .node .nil p p [tok] 0 .nil := rfl
  refine ⟨?_, ?_, rfl, ?_, ?_⟩
  · simp [LineMap.set, LineMap.empty, assertRange, lookupTok, hins]
  · simp [LineMap.has, lookupTok]
  · simp [LineMap.filled, assertRange, hasNode]
  · have hvr : ¬ qe < qs := by omega
    have hc1 : ¬(max qs p < min qe p) := by omega
    have hc2 : ¬(qs = qe ∧ p ≤ qs ∧ qs < p) := by omega
    simp [LineMap.getKeys, assertRange, hvr, getNodes, hc1, hc2, collectKeys]

theorem mem_if_nil {A : Type} {c : Prop} [Decidable c] {l : List A} {a : A} :
    a ∈ (if c then l else []) ↔ c ∧ a ∈ l := by
  split <;> simp [*]

theorem mem_addTok {T : Type} [DecidableEq T] {l : List T} {x a : T} :
    a ∈ addTok l x ↔ a ∈ l ∨ a = x := by
  unfold addTok
  split
  · rename_i hx
    constructor
    · exact Or.inl
    · rintro (h2 | rfl)
      · exact h2
      · exact hx
  · simp

theorem mem_addAll {T : Type} [DecidableEq T] (tks : List T) (acc : List T) (a : T) :
    a ∈ addAll acc tks ↔ a ∈ acc ∨ a ∈ tks := by
  induction tks generalizing acc with
  | nil => simp [addAll]
  | cons t ts ih =>
      show a ∈ addAll (addTok acc t) ts ↔ _
      rw [ih (addTok acc t), mem_addTok]
      simp [List.mem_cons]
      tauto

theorem mem_collectKeys {T : Type} [DecidableEq T] (L : List (Int × Int × List T)) (a : T) :
    a ∈ collectKeys L ↔ ∃ x ∈ L, a ∈ x.2.2 := by
  suffices h : ∀ acc, a ∈ L.foldl (fun acc n => addAll acc n.2.2) acc ↔
      a ∈ acc ∨ ∃ x ∈ L, a ∈ x.2.2 by
    simpa [collectKeys] using h []
  induction L with
  | nil => simp
  | cons x xs ih =>
      intro acc
      simp only [List.foldl_cons]
      rw [ih (addAll acc x.2.2), mem_addAll]
      simp [List.mem_cons]
      tauto

theorem allNodesB_mem {T : Type} {p : Int → Int → Bool} {tr : Tree T}
    (h : allNodesB p tr = true) {s e : Int} {tks : List T}
    (hm : (s, e, tks) ∈ nodesList tr) : p s e = true := by
  induction tr with
  | nil => simp [nodesList] at hm
  | node l ns ne ntks nh r ihl ihr =>
      simp only [allNodesB, Bool.and_eq_true] at h
      simp only [nodesList, List.mem_append, List.mem_cons] at hm
      rcases hm with hm | hm | hm
      · exact ihl h.1.2 hm
      · cases hm; exact h.1.1
      · exact ihr h.2 hm

theorem fragmentsOf_of_node {T : Type} [DecidableEq T] {tok : T} {tr : Tree T}
    {s e : Int} {tks : List T}
    (hm : (s, e, tks) ∈ nodesList tr) (ht : tok ∈ tks) : (s, e) ∈ fragmentsOf tok tr := by
  induction tr with
  | nil => simp [nodesList] at hm
  | node l ns ne ntks nh r ihl ihr =>
      simp only [nodesList, List.mem_append, List.mem_cons] at hm
      simp only [fragmentsOf, List.mem_append]
      rcases hm with hm | hm | hm
      · exact Or.inl (Or.inl (ihl hm))
      · cases hm; exact Or.inl (Or.inr (by simp [ht]))
      · exact Or.inr (ihr hm)

theorem node_of_fragmentsOf {T : Type} [DecidableEq T] {tok : T} {tr : Tree T}
    {s e : Int} (hm : (s, e) ∈ fragmentsOf tok tr) :
    ∃ tks, (s, e, tks) ∈ nodesList tr ∧ tok ∈ tks := by
  induction tr with
  | nil => simp [fragmentsOf] at hm
  | node l ns ne ntks nh r ihl ihr =>
      simp only [fragmentsOf, List.mem_append] at hm
      rcases hm with (hm | hm) | hm
      · obtain ⟨tks, h1, h2⟩ := ihl hm
        exact ⟨tks, by simp [nodesList, h1], h2⟩
      · rw [mem_if_nil] at hm
        obtain ⟨hin, heq⟩ := hm
        simp only [List.mem_singleton, Prod.mk.injEq] at heq
        obtain ⟨rfl, rfl⟩ := heq
        exact ⟨ntks, by simp [nodesList], hin⟩
      · obtain ⟨tks, h1, h2⟩ := ihr hm
        exact ⟨tks, by simp [nodesList, h1], h2⟩

theorem getNodes_sound {T : Type} {tr : Tree T} {qs qe : Int} {x : Int × Int × List T}
    (hx : x ∈ getNodes tr qs qe) :
    x ∈ nodesList tr ∧
      (max qs x.1 < min qe x.2.1 ∨ (qs = qe ∧ x.1 ≤ qs ∧ qs < x.2.1)) := by
  induction tr with
  | nil => simp [getNodes] at hx
  | node l ns ne ntks nh r ihl ihr =>
      simp only [getNodes, List.mem_append] at hx
      rcases hx with (hx | hx) | hx
      · rw [mem_if_nil] at hx
        obtain ⟨hmem, hcase⟩ := ihl hx.2
        exact ⟨by simp [nodesList, hmem], hcase⟩
      · rw [mem_if_nil] at hx
        obtain ⟨hcond, hx⟩ := hx
        simp only [List.mem_singleton] at hx
        subst hx
        exact ⟨by simp [nodesList], hcond⟩
      · rw [mem_if_nil] at hx
        obtain ⟨hmem, hcase⟩ := ihr hx.2
        exact ⟨by simp [nodesList, hmem], hcase⟩

theorem getNodes_complete {T : Type} {tr : Tree T} (ho : orderedB tr = true)
    {s e : Int} {tks : List T} (hm : (s, e, tks) ∈ nodesList tr)
    {qs qe : Int} (hov : max qs s < min qe e) :
    (s, e, tks) ∈ getNodes tr qs qe := by
  induction tr with
  | nil => simp [nodesList] at hm
  | node l ns ne ntks nh r ihl ihr =>
      simp only [orderedB, Bool.and_eq_true] at ho
      obtain ⟨⟨⟨⟨hse, hallL⟩, hallR⟩, hoL⟩, hoR⟩ := ho
      simp only [nodesList, List.mem_append, List.mem_cons] at hm
      simp only [getNodes, List.mem_append]
      rcases hm with hm | hm | hm
      · have hle : e ≤ ns := by simpa using allNodesB_mem hallL hm
        have hqs : qs < ns := by omega
        exact Or.inl (Or.inl (by rw [mem_if_nil]; exact ⟨hqs, ihl hoL hm⟩))
      · cases hm
        exact Or.inl (Or.inr (by rw [mem_if_nil]; exact ⟨Or.inl hov, by simp⟩))
      · have hge : ne ≤ s := by simpa using allNodesB_mem hallR hm
        have hqe : ne < qe := by omega
        exact Or.inr (by rw [mem_if_nil]; exact ⟨hqe, ihr hoR hm⟩)

theorem chain_le {l : List (Int × Int)} : ∀ {a b : Int}, chainFromB a b l = true → a ≤ b := by
  induction l with
  | nil =>
      intro a b h
      simp only [chainFromB, beq_iff_eq] at h
      omega
  | cons x rest ih =>
      intro a b h
      obtain ⟨s, e⟩ := x
      simp only [chainFromB, Bool.and_eq_true, beq_iff_eq, decide_eq_true_eq] at h
      have := ih h.2
      omega

theorem chain_overlap {qs qe : Int} {l : List (Int × Int)} :
    ∀ {a b : Int}, chainFromB a b l = true →
      ((∃ x ∈ l, max qs x.1 < min qe x.2) ↔ max qs a < min qe b) := by
  induction l with
  | nil =>
      intro a b h
      simp only [chainFromB, beq_iff_eq] at h
      subst h
      simp
  | cons x rest ih =>
      intro a b h
      obtain ⟨s, e⟩ := x
      simp only [chainFromB, Bool.and_eq_true, beq_iff_eq, decide_eq_true_eq] at h
      obtain ⟨⟨hs, hae⟩, hrest⟩ := h
      subst hs
      have heb : e ≤ b := chain_le hrest
      have hiff := ih hrest
      simp only [List.mem_cons]
      constructor
      · rintro ⟨y, (rfl | hy), hov⟩
        · simp only at hov
          omega
        · have := hiff.mp ⟨y, hy, hov⟩
          omega
      · intro hov
        by_cases hcase : max qs s < min qe e
        · exact ⟨(s, e), Or.inl rfl, hcase⟩
        · have hnext : max qs e < min qe b := by omega
          obtain ⟨y, hy, hovy⟩ := hiff.mpr hnext
          exact ⟨y, Or.inr hy, hovy⟩

/-- C3 (amended): for every `LineMap` state whose tree satisfies the
ordering invariant and in which the fragments of the registered token
`t` tile its registered range `(a, b)` (the spec's ordering and coverage
invariants), and for every query range with `qs < qe`:
`t ∈ getKeys(qs, qe)` iff `max(qs, a) < min(qe, b)`.  The original
claim's extra disjunct for point queries — `qs == qe` and `qs == a` — is
wrong on the code (see the counterexample): a point query reports `t`
exactly when the descent finds a fragment of `t` containing the point,
which depends on the tree shape and neither implies nor is implied by
`qs == a`. -/
theorem c3_amended_overlap_characterization {T : Type} [DecidableEq T]
    (m : LineMap T) (tok : T) (a b qs qe : Int)
    (ho : orderedB m.root = true)
    (hr : m.getRange tok = some (a, b))
    (hc : chainFromB a b (fragmentsOf tok m.root) = true)
    (hq : qs < qe) :
    m.getKeys qs qe = .ok (collectKeys (getNodes m.root qs qe)) ∧
    (tok ∈ collectKeys (getNodes m.root qs qe) ↔ max qs a < min qe b) := by
  constructor
  · have hvr : ¬ qe < qs := by omega
    simp [LineMap.getKeys, assertRange, hvr]
  · rw [mem_collectKeys]
    constructor
    · rintro ⟨x, hx, htok⟩
      obtain ⟨hnl, hcase⟩ := getNodes_sound hx
      obtain ⟨s2, e2, tks2⟩ := x
      rcases hcase with hov | ⟨hpt, _⟩
      · exact (chain_overlap hc).mp ⟨(s2, e2), fragmentsOf_of_node hnl htok, hov⟩
      · omega
    · intro hov
      obtain ⟨y, hy, hovy⟩ := (chain_overlap hc).mpr hov
      obtain ⟨ys, ye⟩ := y
      obtain ⟨tks2, hnl, htk⟩ := node_of_fragmentsOf hy
      exact ⟨(ys, ye, tks2), getNodes_complete ho hnl hovy, htk⟩

/-- Witness for C3 (amended) on the spec's concrete scenario: token
`'one'` registered as `(10, 20)`, query `[16, 19)`. -/
theorem c3_amended_overlap_characterization_witness :
    (⟨[("one", 10, 20), ("two", 30, 40), ("three", 15, 35)],
      .node (.node .nil 10 15 ["one"] 0 .nil) 15 20 ["one", "three"] 2
        (.node (.node .nil 20 30 ["three"] 0 .nil) 30 35 ["two", "three"] 1
          (.node .nil 35 40 ["two"] 0 .nil))⟩ : LineMap String).getKeys 16 19 =
      .ok (collectKeys (getNodes
        (.node (.node .nil 10 15 ["one"] 0 .nil) 15 20 ["one", "three"] 2
          (.node (.node .nil 20 30 ["three"] 0 .nil) 30 35 ["two", "three"] 1
            (.node .nil 35 40 ["two"] 0 .nil))) 16 19)) ∧
    ("one" ∈ collectKeys (getNodes
        (.node (.node .nil 10 15 ["one"] 0 .nil) 15 20 ["one", "three"] 2
          (.node (.node .nil 20 30 ["three"] 0 .nil) 30 35 ["two", "three"] 1
            (.node .nil 35 40 ["two"] 0 .nil))) 16 19) ↔
      max (16 : Int) 10 < min 19 20) :=
  c3_amended_overlap_characterization
    ⟨[("one", 10, 20), ("two", 30, 40), ("three", 15, 35)],
      .node (.node .nil 10 15 ["one"] 0 .nil) 15 20 ["one", "three"] 2
        (.node (.node .nil 20 30 ["three"] 0 .nil) 30 35 ["two", "three"] 1
          (.node .nil 35 40 ["two"] 0 .nil))⟩
    "one" 10 20 16 19 (by decide) (by decide) (by decide) (by decide)

/-- Witness for C10 (amended) at `tok = 0`, `p = 5`, query `[3, 7)`. -/
theorem c10_amended_fresh_map_witness :
    (LineMap.empty : LineMap Nat).set 0 5 5 =
      .ok ⟨[(0, 5, 5)], .node .nil 5 5 [0] 0 .nil⟩ ∧
    (⟨[(0, 5, 5)], .node .nil 5 5 [0] 0 .nil⟩ : LineMap Nat).has 0 = true ∧
    LineMap.size (⟨[(0, 5, 5)], .node .nil 5 5 [0] 0 .nil⟩ : LineMap Nat) = 1 ∧
    (⟨[(0, 5, 5)], .node .nil 5 5 [0] 0 .nil⟩ : LineMap Nat).filled 5 5 = .ok true ∧
    (⟨[(0, 5, 5)], .node .nil 5 5 [0] 0 .nil⟩ : LineMap Nat).getKeys 3 7 = .ok [] :=
  c10_amended_fresh_map 0 5 3 7 (by decide)

end LineMapModel
